import Mathlib

/-!
Shallow embedding of `hack/mkdocs-copy-geps.py`, the conformance-report
aggregation pipeline: loading report files (`getYaml`), the general
implementation table (`create_md`) and the HTTPRoute feature matrix
(`httproute_table`).

Reports are flattened to one row per (report, profile) pair, carrying the
implementation's organization and version next to the profile's name and
`extended.supportedFeatures`, exactly as `pandas.json_normalize` produces
them in `getYaml`.
-/

/-- One flattened row of the reports frame: implementation metadata merged
with one profile (`json_normalize` with `record_path='profiles'`). -/
structure Row where
  organization : String
  version : String
  name : String
  supportedFeatures : List String
deriving DecidableEq

/-- One profile of a report document: `name` and
`extended.supportedFeatures`. -/
structure Profile where
  name : String
  supportedFeatures : List String
deriving DecidableEq

/-- One file discovered under the conformance reports directory, already
parsed (`yaml.safe_load`): path plus the report's `implementation` fields
and its `profiles` list. -/
structure ReportFile where
  path : String
  organization : String
  version : String
  profiles : List Profile
deriving DecidableEq

/-- Flattening of one parsed report: one row per profile, implementation
metadata carried alongside (`json_normalize` + `concat` in `getYaml`). -/
def flattenFile (f : ReportFile) : List Row :=
  f.profiles.map fun p =>
    { organization := f.organization, version := f.version,
      name := p.name, supportedFeatures := p.supportedFeatures }

/-- `fnmatch(p, "*.yaml")`: the path ends in `.yaml` (checked as: the
reversed character list starts with the reversed suffix). -/
def matchesYamlGlob (p : String) : Bool :=
  (".yaml".data.reverse).isPrefixOf p.data.reverse

/-- `getYaml`: keep the files whose path matches `fnmatch(p, "*.yaml")`
(the documented naming convention is never consulted), flatten each into
rows and concatenate.  When no file matches, the list passed to
`pandas.concat` is empty and `concat` raises
`ValueError: No objects to concatenate`. -/
def getYaml (files : List ReportFile) : Except String (List Row) :=
  if (files.filter fun f => matchesYamlGlob f.path).isEmpty then
    .error "ValueError: No objects to concatenate"
  else .ok ((files.filter fun f => matchesYamlGlob f.path).flatMap flattenFile)

/-- Python's `<` on the character lists of two strings: lexicographic
comparison of Unicode code points, the order pandas uses when sorting the
string-valued `organization` and `version` columns. -/
def charListLtB : List Char → List Char → Bool
  | _, [] => false
  | [], _ :: _ => true
  | a :: as, b :: bs => if a = b then charListLtB as bs else decide (a < b)

/-- Python `a < b` on strings. -/
def strLtB (a b : String) : Bool := charListLtB a.data b.data

/-- Python `a < b` on strings, as a proposition. -/
def strLt (a b : String) : Prop := strLtB a b = true

/-- Python `a <= b` on strings: `not (b < a)` for this total order. -/
def strLe (a b : String) : Prop := strLtB b a = false

instance : DecidableRel strLt := fun a b =>
  inferInstanceAs (Decidable (_ = true))

instance : DecidableRel strLe := fun a b =>
  inferInstanceAs (Decidable (_ = false))

theorem charListLtB_irrefl (l : List Char) : charListLtB l l = false := by
  induction l with
  | nil => rfl
  | cons a as ih => simp [charListLtB, ih]

theorem charListLtB_trans {a b c : List Char} (h1 : charListLtB a b = true)
    (h2 : charListLtB b c = true) : charListLtB a c = true := by
  induction a generalizing b c with
  | nil =>
    cases c with
    | nil =>
      cases b with
      | nil => simp [charListLtB] at h1
      | cons b bs => simp [charListLtB] at h2
    | cons c cs => rfl
  | cons a as ih =>
    cases b with
    | nil => simp [charListLtB] at h1
    | cons b bs =>
      cases c with
      | nil => simp [charListLtB] at h2
      | cons c cs =>
        rw [charListLtB] at h1 h2 ⊢
        by_cases hab : a = b
        · subst hab
          rw [if_pos rfl] at h1
          by_cases hac : a = c
          · subst hac
            rw [if_pos rfl] at h2 ⊢
            exact ih h1 h2
          · rw [if_neg hac] at h2 ⊢
            exact h2
        · rw [if_neg hab] at h1
          have hlt : a < b := of_decide_eq_true h1
          by_cases hbc : b = c
          · subst hbc
            rw [if_neg hab]
            exact h1
          · rw [if_neg hbc] at h2
            have hlt2 : b < c := of_decide_eq_true h2
            have hac : a < c := hlt.trans hlt2
            rw [if_neg (ne_of_lt hac)]
            exact decide_eq_true hac

theorem charListLtB_total_eq {a b : List Char} (h1 : charListLtB a b = false)
    (h2 : charListLtB b a = false) : a = b := by
  induction a generalizing b with
  | nil =>
    cases b with
    | nil => rfl
    | cons b bs => simp [charListLtB] at h1
  | cons a as ih =>
    cases b with
    | nil => simp [charListLtB] at h2
    | cons b bs =>
      rw [charListLtB] at h1 h2
      by_cases hab : a = b
      · subst hab
        rw [if_pos rfl] at h1
        rw [if_pos rfl] at h2
        rw [ih h1 h2]
      · rw [if_neg hab] at h1
        rw [if_neg (Ne.symm hab)] at h2
        have h3 : ¬a < b := of_decide_eq_false h1
        have h4 : ¬b < a := of_decide_eq_false h2
        rcases lt_trichotomy a b with h | h | h
        · exact absurd h h3
        · exact absurd h hab
        · exact absurd h h4

theorem strLt_irrefl (a : String) : ¬strLt a a := by
  simp [strLt, strLtB, charListLtB_irrefl]

theorem str_eq_of_not_lt {a b : String} (h1 : strLtB a b = false)
    (h2 : strLtB b a = false) : a = b := by
  cases a
  cases b
  exact congrArg String.mk (charListLtB_total_eq h1 h2)

theorem strLe_refl (a : String) : strLe a a := charListLtB_irrefl a.data

theorem strLe_total (a b : String) : strLe a b ∨ strLe b a := by
  cases hba : strLtB b a with
  | false => exact Or.inl hba
  | true =>
    cases hab : strLtB a b with
    | false => exact Or.inr hab
    | true =>
      have := charListLtB_trans hab hba
      rw [charListLtB_irrefl] at this
      exact absurd this (by simp)

theorem strLe_trans {a b c : String} (h1 : strLe a b) (h2 : strLe b c) :
    strLe a c := by
  cases hca : strLtB c a with
  | false => exact hca
  | true =>
    exfalso
    cases hab : strLtB a b with
    | true =>
      have h3 : charListLtB c.data b.data = true := charListLtB_trans hca hab
      have h4 : charListLtB c.data b.data = false := h2
      rw [h4] at h3
      exact Bool.noConfusion h3
    | false =>
      have heq : a = b := str_eq_of_not_lt hab h1
      subst heq
      have h4 : strLtB c a = false := h2
      rw [h4] at hca
      exact Bool.noConfusion hca

/-- Lexicographic comparison on (organization, version) pairs, the order
`sort_values(['organization','version'])` sorts by: pandas compares the
string tuples with Python's `<`/`<=`. -/
def pairLe (p q : String × String) : Prop :=
  strLt p.1 q.1 ∨ (p.1 = q.1 ∧ strLe p.2 q.2)

instance : DecidableRel pairLe := fun p q =>
  inferInstanceAs (Decidable (_ ∨ _))

/-- `pairLe` lifted along key projections, so the same order can be applied
to the raw rows (`httproute_table`) and to the filled rows (`create_md`). -/
def keyRel (ko kv : α → String) (a b : α) : Prop :=
  pairLe (ko a, kv a) (ko b, kv b)

instance (ko kv : α → String) : DecidableRel (keyRel ko kv) := fun a b =>
  inferInstanceAs (Decidable (pairLe _ _))

instance (ko kv : α → String) : IsTotal α (keyRel ko kv) := by
  constructor
  intro a b
  cases hab : strLtB (ko a) (ko b) with
  | true => exact Or.inl (Or.inl hab)
  | false =>
    cases hba : strLtB (ko b) (ko a) with
    | true => exact Or.inr (Or.inl hba)
    | false =>
      have he : ko a = ko b := str_eq_of_not_lt hab hba
      rcases strLe_total (kv a) (kv b) with h2 | h2
      · exact Or.inl (Or.inr ⟨he, h2⟩)
      · exact Or.inr (Or.inr ⟨he.symm, h2⟩)

instance (ko kv : α → String) : IsTrans α (keyRel ko kv) := by
  constructor
  intro a b c hab hbc
  rcases hab with h1 | ⟨e1, l1⟩
  · rcases hbc with h2 | ⟨e2, l2⟩
    · exact Or.inl (charListLtB_trans h1 h2)
    · exact Or.inl (e2 ▸ h1)
  · rcases hbc with h2 | ⟨e2, l2⟩
    · exact Or.inl (e1 ▸ h2)
    · exact Or.inr ⟨e1.trans e2, strLe_trans l1 l2⟩

/-- `drop_duplicates(subset=key, keep='last')`: keep the last occurrence of
each key, preserving the order of the survivors. -/
def dedupKeepLast (ko : α → String) : List α → List α
  | [] => []
  | a :: as =>
    if as.any (fun b => ko b == ko a) then dedupKeepLast ko as
    else a :: dedupKeepLast ko as

/-- `sort_values([org, version])` followed by
`drop_duplicates(subset=org, keep='last')` — the latest-version-per-
organization step shared by `create_md` and `httproute_table`. -/
def sortDedupByOrgVersion (ko kv : α → String) (l : List α) : List α :=
  dedupKeepLast ko (List.insertionSort (keyRel ko kv) l)

/-- Ordering of rows by organization alone, used by
`groupby(['organization']).apply(lambda x: x)`. -/
def byOrgLe (a b : Row) : Prop := strLe a.organization b.organization

instance : DecidableRel byOrgLe := fun a b =>
  inferInstanceAs (Decidable (strLe _ _))

/-- The grouped frame `tests.groupby(['organization']).apply(lambda x: x)`:
rows reordered by organization (groups in key order, original order within
a group). -/
def sortedByOrg (rows : List Row) : List Row :=
  List.insertionSort byOrgLe rows

/-- `Series.unique()`: distinct values in order of first occurrence. -/
def uniqueFirstAux (seen : List String) : List String → List String
  | [] => []
  | a :: as =>
    if seen.contains a then uniqueFirstAux seen as
    else a :: uniqueFirstAux (seen ++ [a]) as

def uniqueFirst (l : List String) : List String := uniqueFirstAux [] l

/-- `testNames = tests['name'].unique()` computed on the grouped frame:
the distinct profile names in first-occurrence order. -/
def testNames (rows : List Row) : List String :=
  uniqueFirst ((sortedByOrg rows).map (·.name))

/-- The groupby keys of `reports.groupby(["organization"])`: the distinct
organizations in sorted order. -/
def sortedOrgs (rows : List Row) : List String :=
  uniqueFirst ((sortedByOrg rows).map (·.organization))

/-- `reports.groupby(["organization"]).name.apply(' '.join)` for one
organization: the profile names of every flattened row of that
organization (all report versions, before any deduplication), joined with
single spaces in original row order. -/
def joinedNames (rows : List Row) (o : String) : String :=
  String.intercalate " " ((rows.filter fun r => r.organization == o).map (·.name))

/-- A row of the general table while the per-category merges are running:
`organization`, the joined `name` column, the `version` column added by
the first merge (`none` = NaN) and one supported-features cell per
category merged so far, keyed by its column label (`none` = NaN from an
unmatched left merge). -/
structure PartialRow where
  organization : String
  protocolProfile : String
  version : Option String
  cells : List (String × Option (List String))
deriving DecidableEq

/-- The column label `n + ': Supported Features'` given to a category's
features column by the `rename` in the merge loop. -/
def featLabel (n : String) : String := n ++ ": Supported Features"

/-- `df.loc[df['name']==n]`: the grouped frame's rows of one category. -/
def catRows (rows : List Row) (n : String) : List Row :=
  (sortedByOrg rows).filter fun r => r.name == n

/-- The first iteration of the merge loop.  The running table only has the
`organization` and joined-`name` columns, so `table.merge(temp, how="left")`
joins on `organization` alone; a match contributes its `version` and its
features cell, no match leaves both NaN. -/
def mergeFirstCat (rows : List Row) (n : String) (p : PartialRow) : List PartialRow :=
  let ms := (catRows rows n).filter fun m => m.organization == p.organization
  if ms.isEmpty then
    [{ p with version := none, cells := p.cells ++ [(featLabel n, none)] }]
  else
    ms.map fun m =>
      { p with version := some m.version,
               cells := p.cells ++ [(featLabel n, some m.supportedFeatures)] }

/-- Later iterations of the merge loop.  The running table now has a
`version` column, so the left merge joins on `organization` and `version`
(a NaN version matches nothing, since the right side holds real version
strings). -/
def mergeNextCat (rows : List Row) (n : String) (p : PartialRow) : List PartialRow :=
  let ms := (catRows rows n).filter fun m =>
    m.organization == p.organization && (some m.version == p.version)
  if ms.isEmpty then
    [{ p with cells := p.cells ++ [(featLabel n, none)] }]
  else
    ms.map fun m =>
      { p with cells := p.cells ++ [(featLabel n, some m.supportedFeatures)] }

/-- `reports.groupby(["organization"], as_index=False).name.apply(' '.join)`:
one row per organization (sorted), with the space-joined profile names. -/
def baseTable (rows : List Row) : List PartialRow :=
  (sortedOrgs rows).map fun o =>
    { organization := o, protocolProfile := joinedNames rows o,
      version := none, cells := [] }

/-- The whole merge loop `for n in testNames: ... table.merge(temp, how="left")`. -/
def mergedRows (rows : List Row) : List PartialRow :=
  match testNames rows with
  | [] => baseTable rows
  | n :: ns =>
    ns.foldl (fun acc n2 => acc.flatMap (mergeNextCat rows n2))
      ((baseTable rows).flatMap (mergeFirstCat rows n))

/-- The label of the column `create_md` drops unconditionally. -/
def tlsLabel : String := "TLS: Supported Features"

/-- `table.drop(["TLS: Supported Features"], axis=1)`: removes the cells
carrying that label; when no category produced the label (no report has a
TLS profile) pandas raises `KeyError`. -/
def droppedRows (rows : List Row) : Except String (List PartialRow) :=
  if ((testNames rows).map featLabel).contains tlsLabel then
    .ok ((mergedRows rows).map fun p =>
      { p with cells := p.cells.filter fun c => c.1 != tlsLabel })
  else .error "KeyError: TLS: Supported Features"

/-- A row of the general table after `fillna("N/A")`: every cell is a
plain string. -/
structure FilledRow where
  organization : String
  protocolProfile : String
  version : String
  cells : List (String × String)
deriving DecidableEq

/-- Python `str()` of a list of strings, the way a supported-features cell
is rendered into the markdown table. -/
def pyStr (fs : List String) : String :=
  let sq := (Char.ofNat 39).toString
  "[" ++ String.intercalate ", " (fs.map fun s => sq ++ s ++ sq) ++ "]"

/-- `fillna("N/A")` on one supported-features cell. -/
def fillCell : Option (List String) → String
  | none => "N/A"
  | some fs => pyStr fs

/-- `fillna("N/A")` on one row: NaN version and NaN cells become `"N/A"`. -/
def fillRow (p : PartialRow) : FilledRow :=
  { organization := p.organization, protocolProfile := p.protocolProfile,
    version := p.version.getD "N/A",
    cells := p.cells.map fun c => (c.1, fillCell c.2) }

/-- The general table: its column labels (after the header renames) and
its rows. -/
structure GTable where
  columns : List String
  rows : List FilledRow
deriving DecidableEq

instance : Inhabited GTable := ⟨⟨[], []⟩⟩

/-- `create_md`: build the merged table, drop the TLS features column
(KeyError when absent), rename the headers, fill NaN with `"N/A"`, sort by
(Organization, Version) and keep the last row per organization. -/
def create_md (reports : List Row) : Except String GTable :=
  match droppedRows reports with
  | .error e => .error e
  | .ok dropped =>
    .ok { columns := ["Organization", "Protocol Profile", "Version"] ++
            (((testNames reports).map featLabel).filter fun c => c != tlsLabel),
          rows := sortDedupByOrgVersion (fun r => r.organization)
            (fun r => r.version) (dropped.map fillRow) }

/-- The hand-maintained HTTPRoute extended-conformance feature list. -/
def httproute_extended_conformance_features_list : List String :=
  ["HTTPRouteBackendRequestHeaderModification", "HTTPRouteQueryParamMatching",
   "HTTPRouteMethodMatching", "HTTPRouteResponseHeaderModification",
   "HTTPRoutePortRedirect", "HTTPRouteSchemeRedirect", "HTTPRoutePathRedirect",
   "HTTPRouteHostRewrite", "HTTPRoutePathRewrite", "HTTPRouteRequestMirror",
   "HTTPRouteRequestMultipleMirrors", "HTTPRouteRequestTimeout",
   "HTTPRouteBackendTimeout", "HTTPRouteParentRefPort"]

/-- `http_reports` in `httproute_table`: the HTTP-category rows, sorted by
(organization, version) and deduplicated keeping the last (latest version)
row per organization. -/
def httpDedupedReports (reports : List Row) : List Row :=
  sortDedupByOrgVersion (fun r => r.organization) (fun r => r.version)
    (reports.filter fun r => r.name == "HTTP")

/-- The positive cell indicator written by `httproute_table`. -/
def posIndicator : String := ":white_check_mark:"

/-- The negative cell indicator written by `httproute_table`. -/
def negIndicator : String := ":x:"

/-- The HTTPRoute feature matrix: one column per organization of the
deduplicated HTTP frame, and one row per feature of the fixed list, each
row carrying its cells in column order. -/
structure FeatureMatrix where
  orgColumns : List String
  rows : List (String × List String)
deriving DecidableEq

instance : Inhabited FeatureMatrix := ⟨⟨[], []⟩⟩

/-- `httproute_table`.  The nested assignment loop runs over every feature
and every entry of `reports['organization']` (all flattened rows); for an
organization with no HTTP row the lookup
`http_reports.loc[...]['extended.supportedFeatures'].to_list()[0]` indexes
an empty list and raises `IndexError`, so the guard below is the loop's
only failure mode.  When it succeeds, the deduplicated frame has one row
per organization, so the cell written under an organization's column is
the membership test against that unique row's supported-features list. -/
def httproute_table (reports : List Row) : Except String FeatureMatrix :=
  if httproute_extended_conformance_features_list.all (fun _ =>
      (reports.map (·.organization)).all fun p =>
        !(((httpDedupedReports reports).filter fun r => r.organization == p).isEmpty)) then
    .ok { orgColumns := (httpDedupedReports reports).map (·.organization),
          rows := httproute_extended_conformance_features_list.map fun feat =>
            (feat, (httpDedupedReports reports).map fun r =>
              if feat ∈ r.supportedFeatures then posIndicator else negIndicator) }
  else .error "IndexError: list index out of range"

/-- Lookup of one feature-matrix cell by feature name and organization
column name. -/
def matrixCell (m : FeatureMatrix) (feat o : String) : Option String :=
  match List.lookup feat m.rows with
  | none => none
  | some cells => List.lookup o (m.orgColumns.zip cells)

/-- Markdown rendering of the general table with its fixed preamble, as
written to `site-src/implementation-table.md`. -/
def renderGTable (t : GTable) : String :=
  "This table is populated from the conformance reports uploaded by project implementations.\n\n"
  ++ "| " ++ String.intercalate " | " t.columns ++ " |\n"
  ++ String.intercalate "\n" (t.rows.map fun r =>
      "| " ++ String.intercalate " | "
        ([r.organization, r.protocolProfile, r.version] ++ r.cells.map (·.2)) ++ " |")
  ++ "\n"

/-- Markdown rendering of the feature matrix with its fixed preamble, as
written to `site-src/httproute-implementation-table.md`. -/
def renderFeatureMatrix (m : FeatureMatrix) : String :=
  "This table is populated from the conformance reports uploaded by project implementations.\n\n"
  ++ "| " ++ String.intercalate " | " ("Features" :: m.orgColumns) ++ " |\n"
  ++ String.intercalate "\n" (m.rows.map fun r =>
      "| " ++ String.intercalate " | " (r.1 :: r.2) ++ " |")
  ++ "\n"

/-- The aggregation-and-render pipeline of `on_pre_build` on an already
parsed report set: the two markdown file contents. -/
def runPipeline (reports : List Row) : Except String (String × String) :=
  match create_md reports with
  | .error e => .error e
  | .ok t =>
    match httproute_table reports with
    | .error e => .error e
    | .ok m => .ok (renderGTable t, renderFeatureMatrix m)

/-! ## Generic facts about `dedupKeepLast` and `sortDedupByOrgVersion` -/

theorem mem_of_mem_dedupKeepLast {ko : α → String} {l : List α} {x : α}
    (hx : x ∈ dedupKeepLast ko l) : x ∈ l := by
  induction l with
  | nil => simp [dedupKeepLast] at hx
  | cons a as ih =>
    rw [dedupKeepLast] at hx
    split at hx
    · exact List.mem_cons_of_mem _ (ih hx)
    · rcases List.mem_cons.mp hx with rfl | h
      · exact List.mem_cons_self _ _
      · exact List.mem_cons_of_mem _ (ih h)

theorem dedupKeepLast_split {ko : α → String} {l : List α} {x : α}
    (hx : x ∈ dedupKeepLast ko l) :
    ∃ l1 l2, l = l1 ++ x :: l2 ∧ ∀ y ∈ l2, ko y ≠ ko x := by
  induction l with
  | nil => simp [dedupKeepLast] at hx
  | cons a as ih =>
    rw [dedupKeepLast] at hx
    split at hx
    next h =>
      obtain ⟨l1, l2, he, hne⟩ := ih hx
      exact ⟨a :: l1, l2, by rw [he, List.cons_append], hne⟩
    next h =>
      rcases List.mem_cons.mp hx with rfl | h2
      · refine ⟨[], as, rfl, ?_⟩
        intro y hy hk
        exact h (List.any_eq_true.mpr ⟨y, hy, beq_iff_eq.mpr hk⟩)
      · obtain ⟨l1, l2, he, hne⟩ := ih h2
        exact ⟨a :: l1, l2, by rw [he, List.cons_append], hne⟩

theorem exists_mem_dedupKeepLast (ko : α → String) (l : List α) :
    ∀ a ∈ l, ∃ x ∈ dedupKeepLast ko l, ko x = ko a := by
  induction l with
  | nil => intro a ha; cases ha
  | cons b bs ih =>
    intro a ha
    rw [dedupKeepLast]
    split
    next h =>
      rcases List.mem_cons.mp ha with rfl | h2
      · obtain ⟨c, hc, hkc⟩ := List.any_eq_true.mp h
        obtain ⟨x, hx, hkx⟩ := ih c hc
        exact ⟨x, hx, hkx.trans (beq_iff_eq.mp hkc)⟩
      · exact ih a h2
    next h =>
      rcases List.mem_cons.mp ha with rfl | h2
      · exact ⟨a, List.mem_cons_self _ _, rfl⟩
      · obtain ⟨x, hx, hkx⟩ := ih a h2
        exact ⟨x, List.mem_cons_of_mem _ hx, hkx⟩

theorem pairwise_ne_dedupKeepLast (ko : α → String) (l : List α) :
    (dedupKeepLast ko l).Pairwise fun a b => ko a ≠ ko b := by
  induction l with
  | nil => simp [dedupKeepLast]
  | cons a as ih =>
    rw [dedupKeepLast]
    split
    next h => exact ih
    next h =>
      refine List.Pairwise.cons ?_ ih
      intro x hx hk
      exact h (List.any_eq_true.mpr
        ⟨x, mem_of_mem_dedupKeepLast hx, beq_iff_eq.mpr hk.symm⟩)

theorem length_filter_le_one_of_pairwise {k : β → String} {l : List β}
    (hp : l.Pairwise fun a b => k a ≠ k b) (o : String) :
    (l.filter fun x => k x == o).length ≤ 1 := by
  induction l with
  | nil => simp
  | cons a as ih =>
    rcases List.pairwise_cons.mp hp with ⟨ha, has⟩
    rw [List.filter_cons]
    by_cases hk : (k a == o) = true
    · have hnil : (as.filter fun x => k x == o) = [] := by
        refine List.filter_eq_nil_iff.mpr ?_
        intro b hb hbk
        exact ha b hb ((beq_iff_eq.mp hk).trans (beq_iff_eq.mp hbk).symm)
      simp [hk, hnil]
    · simpa [hk] using ih has

theorem mem_of_mem_sortDedup {ko kv : α → String} {l : List α} {x : α}
    (hx : x ∈ sortDedupByOrgVersion ko kv l) : x ∈ l :=
  (List.perm_insertionSort (keyRel ko kv) l).mem_iff.mp
    (mem_of_mem_dedupKeepLast hx)

theorem sortDedup_version_le {ko kv : α → String} {l : List α} {x : α}
    (hx : x ∈ sortDedupByOrgVersion ko kv l) :
    ∀ y ∈ l, ko y = ko x → strLe (kv y) (kv x) := by
  intro y hy hk
  have hs : (List.insertionSort (keyRel ko kv) l).Sorted (keyRel ko kv) :=
    List.sorted_insertionSort _ _
  have hys : y ∈ List.insertionSort (keyRel ko kv) l :=
    (List.perm_insertionSort (keyRel ko kv) l).mem_iff.mpr hy
  obtain ⟨l1, l2, he, hne⟩ := dedupKeepLast_split hx
  rw [he] at hys hs
  rcases List.mem_append.mp hys with h1 | h2
  · have hr := (List.pairwise_append.mp hs).2.2 y h1 x (List.mem_cons_self _ _)
    have hr2 : strLt (ko y) (ko x) ∨ (ko y = ko x ∧ strLe (kv y) (kv x)) := hr
    rcases hr2 with hlt | ⟨_, hle⟩
    · exact absurd (hk ▸ hlt) (strLt_irrefl (ko x))
    · exact hle
  · rcases List.mem_cons.mp h2 with rfl | h3
    · exact strLe_refl _
    · exact absurd hk (hne y h3)

theorem sortDedup_exists (ko kv : α → String) (l : List α) :
    ∀ a ∈ l, ∃ x ∈ sortDedupByOrgVersion ko kv l, ko x = ko a := by
  intro a ha
  exact exists_mem_dedupKeepLast ko _ a
    ((List.perm_insertionSort (keyRel ko kv) l).mem_iff.mpr ha)

theorem sortDedup_pairwise_ne (ko kv : α → String) (l : List α) :
    (sortDedupByOrgVersion ko kv l).Pairwise fun a b => ko a ≠ ko b :=
  pairwise_ne_dedupKeepLast ko _

theorem sortDedup_max_version (ko kv : α → String) (l : List α) (x : α)
    (hx : x ∈ sortDedupByOrgVersion ko kv l) :
    kv x ∈ ((l.filter fun y => ko y == ko x).map kv) ∧
    ∀ v ∈ ((l.filter fun y => ko y == ko x).map kv), strLe v (kv x) := by
  constructor
  · exact List.mem_map.mpr
      ⟨x, List.mem_filter.mpr ⟨mem_of_mem_sortDedup hx, beq_iff_eq.mpr rfl⟩, rfl⟩
  · intro v hv
    obtain ⟨y, hy, rfl⟩ := List.mem_map.mp hv
    rcases List.mem_filter.mp hy with ⟨hyl, hko⟩
    exact sortDedup_version_le hx y hyl (beq_iff_eq.mp hko)

/-! ## Invariants of the `create_md` merge loop -/

theorem forall_flatMap {l : List β} {f : β → List β} {Q : β → Prop}
    (hl : ∀ p ∈ l, Q p) (hf : ∀ p, Q p → ∀ q ∈ f p, Q q) :
    ∀ q ∈ l.flatMap f, Q q := by
  intro q hq
  obtain ⟨p, hp, hqf⟩ := List.mem_flatMap.mp hq
  exact hf p (hl p hp) q hqf

theorem foldl_flatMap_inv {β} (step : String → β → List β) (Q : β → Prop)
    (hstep : ∀ n p, Q p → ∀ q ∈ step n p, Q q) :
    ∀ (ns : List String) (acc : List β), (∀ p ∈ acc, Q p) →
      ∀ q ∈ ns.foldl (fun a n => a.flatMap (step n)) acc, Q q := by
  intro ns
  induction ns with
  | nil => intro acc hacc q hq; exact hacc q (by simpa using hq)
  | cons n ns ih =>
    intro acc hacc q hq
    rw [List.foldl_cons] at hq
    exact ih _ (forall_flatMap hacc (fun p hp => hstep n p hp)) q hq

theorem mergeFirstCat_preserves (rows : List Row) (n : String) (p : PartialRow) :
    ∀ q ∈ mergeFirstCat rows n p,
      q.organization = p.organization ∧ q.protocolProfile = p.protocolProfile := by
  intro q hq
  rw [mergeFirstCat] at hq
  split at hq
  · rcases List.mem_singleton.mp hq with rfl
    exact ⟨rfl, rfl⟩
  · obtain ⟨m, hm, rfl⟩ := List.mem_map.mp hq
    exact ⟨rfl, rfl⟩

theorem mergeNextCat_preserves (rows : List Row) (n : String) (p : PartialRow) :
    ∀ q ∈ mergeNextCat rows n p,
      q.organization = p.organization ∧ q.protocolProfile = p.protocolProfile := by
  intro q hq
  rw [mergeNextCat] at hq
  split at hq
  · rcases List.mem_singleton.mp hq with rfl
    exact ⟨rfl, rfl⟩
  · obtain ⟨m, hm, rfl⟩ := List.mem_map.mp hq
    exact ⟨rfl, rfl⟩

theorem mergedRows_profile (rows : List Row) :
    ∀ p ∈ mergedRows rows,
      p.protocolProfile = joinedNames rows p.organization := by
  have hbase : ∀ p ∈ baseTable rows,
      p.protocolProfile = joinedNames rows p.organization := by
    intro p hp
    obtain ⟨o, ho, rfl⟩ := List.mem_map.mp hp
    rfl
  rw [mergedRows]
  split
  · exact hbase
  next n ns heq =>
    refine foldl_flatMap_inv (mergeNextCat rows)
      (fun p => p.protocolProfile = joinedNames rows p.organization) ?_ ns _ ?_
    · intro n2 p hp q hq
      obtain ⟨ho, hn⟩ := mergeNextCat_preserves rows n2 p q hq
      rw [hn, ho, hp]
    · refine forall_flatMap hbase ?_
      intro p hp q hq
      obtain ⟨ho, hn⟩ := mergeFirstCat_preserves rows n p q hq
      rw [hn, ho, hp]

/-! ## Lookup facts for the feature matrix -/

theorem lookup_map_self {β} (c : String → β) {fs : List String} {feat : String}
    (h : feat ∈ fs) :
    List.lookup feat (fs.map fun f => (f, c f)) = some (c feat) := by
  induction fs with
  | nil => cases h
  | cons f0 fs ih =>
    rw [List.map_cons]
    by_cases he : (feat == f0) = true
    · rcases beq_iff_eq.mp he with rfl
      simp [List.lookup]
    · have he2 : (feat == f0) = false := by
        exact Bool.not_eq_true _ ▸ he
      rcases List.mem_cons.mp h with rfl | h2
      · simp at he
      · simp only [List.lookup, he2]
        exact ih h2

theorem lookup_zip_map {β} (k : α → String) (g : α → β) (l : List α) (x : α)
    (hx : x ∈ l) (hpw : l.Pairwise fun a b => k a ≠ k b) :
    List.lookup (k x) ((l.map k).zip (l.map g)) = some (g x) := by
  induction l with
  | nil => cases hx
  | cons a as ih =>
    rcases List.pairwise_cons.mp hpw with ⟨ha, has⟩
    rw [List.map_cons, List.map_cons, List.zip_cons_cons]
    rcases List.mem_cons.mp hx with rfl | h2
    · simp [List.lookup]
    · have hne : (k x == k a) = false := beq_eq_false_iff_ne.mpr (ha x h2).symm
      simp only [List.lookup, hne]
      exact ih h2 has

/-! ## Shape of successful results -/

theorem create_md_ok_elim {reports : List Row} {t : GTable}
    (h : create_md reports = .ok t) :
    ∃ dropped, droppedRows reports = .ok dropped ∧
      t.columns = ["Organization", "Protocol Profile", "Version"] ++
        (((testNames reports).map featLabel).filter fun c => c != tlsLabel) ∧
      t.rows = sortDedupByOrgVersion (fun r => r.organization)
        (fun r => r.version) (dropped.map fillRow) := by
  unfold create_md at h
  split at h
  · exact Except.noConfusion h
  next dropped hd =>
    injection h with h2
    subst h2
    exact ⟨dropped, hd, rfl, rfl⟩

theorem droppedRows_ok_elim {reports : List Row} {dropped : List PartialRow}
    (h : droppedRows reports = .ok dropped) :
    dropped = (mergedRows reports).map fun p =>
      { p with cells := p.cells.filter fun c => c.1 != tlsLabel } := by
  unfold droppedRows at h
  split at h
  · injection h with h2
    exact h2.symm
  · exact Except.noConfusion h

theorem httproute_table_ok_elim {reports : List Row} {m : FeatureMatrix}
    (h : httproute_table reports = .ok m) :
    m.orgColumns = (httpDedupedReports reports).map (fun r => r.organization) ∧
    m.rows = httproute_extended_conformance_features_list.map (fun feat =>
      (feat, (httpDedupedReports reports).map fun r =>
        if feat ∈ r.supportedFeatures then posIndicator else negIndicator)) := by
  unfold httproute_table at h
  split at h
  · injection h with h2
    subst h2
    exact ⟨rfl, rfl⟩
  · exact Except.noConfusion h

/-! ## Claims -/

/-- C1: the spec demands that an organization appearing in the flattened
rows with zero HTTP-profile rows yields an all-negative column without
failing.  The code instead indexes `to_list()[0]` on an empty selection:
on a report set whose only organization has only a TLS profile,
`httproute_table` raises `IndexError` instead of producing the table. -/
theorem c1_missing_http_org_raises_index_error :
    httproute_table [{ organization := "ExampleOrg", version := "1.0.0",
                       name := "TLS", supportedFeatures := [] }] =
      .error "IndexError: list index out of range" := by rfl

/-- C5 counterexample: the claim asserts `create_md` produces a table with
no `TLS: Supported Features` column regardless of input, including inputs
with no TLS profile.  On such an input the unconditional
`table.drop(["TLS: Supported Features"])` raises `KeyError`, so no table
is produced at all. -/
theorem c5_no_tls_profile_raises_keyerror :
    create_md [{ organization := "Acme", version := "1.0.0",
                 name := "HTTP", supportedFeatures := [] }] =
      .error "KeyError: TLS: Supported Features" := by rfl

/-- C5 (amended): whenever `create_md` succeeds in producing a table, that
table contains no column named `TLS: Supported Features`; on inputs where
no report has a TLS profile `create_md` fails with a `KeyError` instead of
producing a table (see the counterexample theorem). -/
theorem c5_tls_column_absent_on_success (reports : List Row) (t : GTable)
    (h : create_md reports = .ok t) :
    "TLS: Supported Features" ∉ t.columns := by
  obtain ⟨dropped, hd, hc, hrw⟩ := create_md_ok_elim h
  rw [hc]
  intro hmem
  rcases List.mem_append.mp hmem with h1 | h2
  · exact absurd h1 (by decide)
  · have hne := (List.mem_filter.mp h2).2
    exact absurd hne (by decide)

def c5Demo : List Row :=
  [{ organization := "Acme", version := "1.0.0", name := "TLS",
     supportedFeatures := [] }]

def c5DemoTable : GTable := (create_md c5Demo).toOption.getD default

/-- C5 witness: a concrete input with a TLS profile on which `create_md`
succeeds and the column is indeed absent. -/
theorem c5_tls_column_absent_on_success_witness :
    "TLS: Supported Features" ∉ c5DemoTable.columns :=
  c5_tls_column_absent_on_success c5Demo c5DemoTable (by rfl)

/-- C6: when no discovered file matches the `*.yaml` pattern, `getYaml`
fails (the empty list reaches `pandas.concat`, which raises) rather than
returning an empty collection. -/
theorem c6_empty_report_set_raises (files : List ReportFile)
    (h : (files.filter fun f => matchesYamlGlob f.path) = []) :
    getYaml files = .error "ValueError: No objects to concatenate" := by
  unfold getYaml
  rw [h]
  rfl

def c6Files : List ReportFile :=
  [{ path := "conformance/reports/v1.0.0/README.md", organization := "Acme",
     version := "1.0.0", profiles := [] }]

/-- C6 witness: a directory with files but none matching `*.yaml` is a
fatal error. -/
theorem c6_empty_report_set_raises_witness :
    getYaml c6Files = .error "ValueError: No objects to concatenate" :=
  c6_empty_report_set_raises c6Files (by rfl)

/-- C8: the aggregation-and-render pipeline is deterministic and
idempotent — two runs on the identical parsed report set return the same
pair of markdown file contents, byte for byte. -/
theorem c8_pipeline_deterministic (reports : List Row)
    (out1 out2 : String × String)
    (h1 : runPipeline reports = .ok out1)
    (h2 : runPipeline reports = .ok out2) : out1 = out2 := by
  rw [h1] at h2
  injection h2

def c8Demo : List Row :=
  [{ organization := "Acme", version := "1.0.0", name := "HTTP",
     supportedFeatures := [] },
   { organization := "Acme", version := "1.0.0", name := "TLS",
     supportedFeatures := [] }]

def c8DemoOut : String × String := (runPipeline c8Demo).toOption.getD ("", "")

/-- C8 witness: a concrete report set on which the pipeline succeeds; two
evaluations of the pipeline yield equal outputs. -/
theorem c8_pipeline_deterministic_witness : c8DemoOut = c8DemoOut :=
  c8_pipeline_deterministic c8Demo c8DemoOut c8DemoOut (by rfl) (by rfl)

/-- C10: a successful `getYaml` returns exactly the flattened rows of the
files whose path ends in `.yaml` — the filter is the suffix test alone, so
every `.yaml` file in the tree is included whether or not its name follows
the documented `<category>-<implementation-version>-<mode>-report.yaml`
convention. -/
theorem c10_any_yaml_file_included (files : List ReportFile) (rows : List Row)
    (h : getYaml files = .ok rows) :
    rows = (files.filter fun f => matchesYamlGlob f.path).flatMap flattenFile ∧
    ∀ f ∈ files, matchesYamlGlob f.path = true →
      ∀ r ∈ flattenFile f, r ∈ rows := by
  unfold getYaml at h
  split at h
  · exact Except.noConfusion h
  · injection h with h2
    subst h2
    refine ⟨rfl, ?_⟩
    intro f hf hy r hr
    exact List.mem_flatMap.mpr ⟨f, List.mem_filter.mpr ⟨hf, hy⟩, hr⟩

def c10Files : List ReportFile :=
  [{ path := "conformance/reports/v1.0.0/junk.yaml", organization := "Acme",
     version := "1.0.0",
     profiles := [{ name := "HTTP", supportedFeatures := [] }] },
   { path := "conformance/reports/v1.0.0/notes.md", organization := "Beta",
     version := "1.0.0", profiles := [] }]

def c10Rows : List Row := (getYaml c10Files).toOption.getD []

/-- C10 witness: a `.yaml` file whose name does not follow the report
naming convention is still loaded, and the non-`.yaml` file is not. -/
theorem c10_any_yaml_file_included_witness :
    c10Rows = (c10Files.filter fun f => matchesYamlGlob f.path).flatMap flattenFile ∧
    ∀ f ∈ c10Files, matchesYamlGlob f.path = true →
      ∀ r ∈ flattenFile f, r ∈ c10Rows :=
  c10_any_yaml_file_included c10Files c10Rows (by rfl)

/-- C2: after sorting by (organization, version) ascending and
deduplicating keeping the last row per organization
(`sortDedupByOrgVersion`, applied by `create_md` to the filled rows and by
`httproute_table` to the HTTP rows), each surviving row carries its
organization's greatest version under the string order used by the sort:
its version occurs among that organization's versions and every such
version is `<=` it. -/
theorem c2_dedup_keeps_greatest_version :
    (∀ (l : List FilledRow) (x : FilledRow),
        x ∈ sortDedupByOrgVersion (fun r => r.organization) (fun r => r.version) l →
        x.version ∈ ((l.filter fun y => y.organization == x.organization).map
          fun r => r.version) ∧
        ∀ v ∈ ((l.filter fun y => y.organization == x.organization).map
          fun r => r.version), strLe v x.version) ∧
    (∀ (l : List Row) (x : Row),
        x ∈ sortDedupByOrgVersion (fun r => r.organization) (fun r => r.version) l →
        x.version ∈ ((l.filter fun y => y.organization == x.organization).map
          fun r => r.version) ∧
        ∀ v ∈ ((l.filter fun y => y.organization == x.organization).map
          fun r => r.version), strLe v x.version) :=
  ⟨fun l x hx => sortDedup_max_version _ _ l x hx,
   fun l x hx => sortDedup_max_version _ _ l x hx⟩

def c2Demo : List Row :=
  [{ organization := "Acme", version := "1.0.0", name := "HTTP",
     supportedFeatures := [] },
   { organization := "Acme", version := "1.1.0", name := "HTTP",
     supportedFeatures := [] }]

def c2Survivor : Row :=
  { organization := "Acme", version := "1.1.0", name := "HTTP",
    supportedFeatures := [] }

/-- C2 witness: for `"Acme"` with versions `["1.0.0","1.1.0"]` the
surviving row has version `"1.1.0"`, the greatest. -/
theorem c2_dedup_keeps_greatest_version_witness :
    c2Survivor.version ∈ ((c2Demo.filter fun y =>
      y.organization == c2Survivor.organization).map fun r => r.version) ∧
    ∀ v ∈ ((c2Demo.filter fun y =>
      y.organization == c2Survivor.organization).map fun r => r.version),
      strLe v c2Survivor.version :=
  c2_dedup_keeps_greatest_version.2 c2Demo c2Survivor (by decide)

/-- C3: every organization appears at most once in each emitted table — at
most one row of the general table and at most one organization column of
the feature matrix carry any given organization name. -/
theorem c3_org_appears_at_most_once (reports : List Row) (t : GTable)
    (m : FeatureMatrix) (ht : create_md reports = .ok t)
    (hm : httproute_table reports = .ok m) (o : String) :
    (t.rows.filter fun r => r.organization == o).length ≤ 1 ∧
    (m.orgColumns.filter fun c => c == o).length ≤ 1 := by
  obtain ⟨dropped, hd, hc, hr⟩ := create_md_ok_elim ht
  obtain ⟨hcols, hrows⟩ := httproute_table_ok_elim hm
  constructor
  · rw [hr]
    exact length_filter_le_one_of_pairwise (sortDedup_pairwise_ne _ _ _) o
  · rw [hcols]
    have hpw : ((httpDedupedReports reports).map fun r => r.organization).Pairwise
        fun a b => (fun c : String => c) a ≠ (fun c : String => c) b :=
      List.pairwise_map.mpr (sortDedup_pairwise_ne _ _ _)
    exact length_filter_le_one_of_pairwise hpw o

def c3Demo : List Row :=
  [{ organization := "Acme", version := "1.0.0", name := "HTTP",
     supportedFeatures := [] },
   { organization := "Acme", version := "1.1.0", name := "HTTP",
     supportedFeatures := [] },
   { organization := "Acme", version := "1.0.0", name := "TLS",
     supportedFeatures := [] }]

def c3DemoTable : GTable := (create_md c3Demo).toOption.getD default

def c3DemoMatrix : FeatureMatrix := (httproute_table c3Demo).toOption.getD default

/-- C3 witness: a report set with two versions of the same organization;
both emitted tables mention it at most once. -/
theorem c3_org_appears_at_most_once_witness :
    (c3DemoTable.rows.filter fun r => r.organization == "Acme").length ≤ 1 ∧
    (c3DemoMatrix.orgColumns.filter fun c => c == "Acme").length ≤ 1 :=
  c3_org_appears_at_most_once c3Demo c3DemoTable c3DemoMatrix
    (by rfl) (by rfl) "Acme"

/-- C7: in a successfully produced general table, every row is the
`fillna("N/A")` image of a merged-and-TLS-dropped row, and on that row
every cell left NaN by an unmatched left merge (and a NaN version) is
rendered as exactly the sentinel string `"N/A"`. -/
theorem c7_unmatched_cells_filled_na (reports : List Row) (t : GTable)
    (h : create_md reports = .ok t) :
    ∀ r ∈ t.rows, ∃ dropped p,
      droppedRows reports = .ok dropped ∧ p ∈ dropped ∧ r = fillRow p ∧
      (p.version = none → r.version = "N/A") ∧
      ∀ cname, (cname, none) ∈ p.cells → (cname, "N/A") ∈ r.cells := by
  intro r hr
  obtain ⟨dropped, hd, hc, hrw⟩ := create_md_ok_elim h
  rw [hrw] at hr
  obtain ⟨p, hp, rfl⟩ := List.mem_map.mp (mem_of_mem_sortDedup hr)
  refine ⟨dropped, p, hd, hp, rfl, ?_, ?_⟩
  · intro hv
    simp [fillRow, hv]
  · intro cname hcell
    exact List.mem_map.mpr ⟨(cname, none), hcell, rfl⟩

def c7Demo : List Row :=
  [{ organization := "Acme", version := "1.0.0", name := "HTTP",
     supportedFeatures := [] },
   { organization := "Acme", version := "1.0.0", name := "TLS",
     supportedFeatures := [] },
   { organization := "Beta", version := "1.0.0", name := "TLS",
     supportedFeatures := [] }]

def c7DemoTable : GTable := (create_md c7Demo).toOption.getD default

def c7BetaRow : FilledRow :=
  { organization := "Beta", protocolProfile := "TLS", version := "N/A",
    cells := [("HTTP: Supported Features", "N/A")] }

/-- C7 witness: the organization with no HTTP row ends up with version
`"N/A"` and an `"N/A"` cell in the HTTP features column. -/
theorem c7_unmatched_cells_filled_na_witness :
    ∃ dropped p, droppedRows c7Demo = .ok dropped ∧ p ∈ dropped ∧
      c7BetaRow = fillRow p ∧ (p.version = none → c7BetaRow.version = "N/A") ∧
      ∀ cname, (cname, none) ∈ p.cells → (cname, "N/A") ∈ c7BetaRow.cells :=
  c7_unmatched_cells_filled_na c7Demo c7DemoTable (by rfl) c7BetaRow (by decide)

/-- C9: the Protocol Profile cell of every row of a successfully produced
general table is the space-joined list of the profile names of all
flattened rows of that organization, over all report versions, before any
deduplication — an organization with two report versions each containing
an HTTP profile shows the name twice. -/
theorem c9_protocol_profile_joins_all_rows (reports : List Row) (t : GTable)
    (h : create_md reports = .ok t) :
    ∀ r ∈ t.rows,
      r.protocolProfile = String.intercalate " "
        ((reports.filter fun q => q.organization == r.organization).map
          fun q => q.name) := by
  intro r hr
  obtain ⟨dropped, hd, hc, hrw⟩ := create_md_ok_elim h
  rw [hrw] at hr
  obtain ⟨p, hp, rfl⟩ := List.mem_map.mp (mem_of_mem_sortDedup hr)
  rw [droppedRows_ok_elim hd] at hp
  obtain ⟨q, hq, rfl⟩ := List.mem_map.mp hp
  exact mergedRows_profile reports q hq

def c9Demo : List Row :=
  [{ organization := "Acme", version := "1.0.0", name := "HTTP",
     supportedFeatures := [] },
   { organization := "Acme", version := "1.1.0", name := "HTTP",
     supportedFeatures := [] },
   { organization := "Acme", version := "1.0.0", name := "TLS",
     supportedFeatures := [] }]

def c9DemoTable : GTable := (create_md c9Demo).toOption.getD default

def c9DemoRow : FilledRow :=
  { organization := "Acme", protocolProfile := "HTTP HTTP TLS",
    version := "1.1.0", cells := [("HTTP: Supported Features", "[]")] }

/-- C9 witness: two report versions with an HTTP profile each yield
`"HTTP HTTP TLS"` in the Protocol Profile cell, not the surviving row's
profiles alone. -/
theorem c9_protocol_profile_joins_all_rows_witness :
    c9DemoRow.protocolProfile = String.intercalate " "
      ((c9Demo.filter fun q => q.organization == c9DemoRow.organization).map
        fun q => q.name) :=
  c9_protocol_profile_joins_all_rows c9Demo c9DemoTable (by rfl)
    c9DemoRow (by decide)

/-- C4: in a successfully produced feature matrix, for every feature of
the fixed list and every organization with at least one HTTP row, the cell
at (feature, organization) is the positive indicator exactly when the
feature belongs to that organization's deduplicated HTTP row's
supported-features list, and the negative indicator otherwise. -/
theorem c4_feature_cell_iff_membership (reports : List Row) (m : FeatureMatrix)
    (hm : httproute_table reports = .ok m) (feat : String)
    (hf : feat ∈ httproute_extended_conformance_features_list) (o : String)
    (ho : ∃ q ∈ reports, q.name = "HTTP" ∧ q.organization = o) :
    ∃ x ∈ httpDedupedReports reports, x.organization = o ∧
      matrixCell m feat o =
        some (if feat ∈ x.supportedFeatures then posIndicator
              else negIndicator) := by
  obtain ⟨hcols, hrows⟩ := httproute_table_ok_elim hm
  obtain ⟨q, hq, hqn, hqo⟩ := ho
  have hqf : q ∈ reports.filter fun r => r.name == "HTTP" :=
    List.mem_filter.mpr ⟨hq, beq_iff_eq.mpr hqn⟩
  obtain ⟨x, hx, hko⟩ :=
    sortDedup_exists (fun r : Row => r.organization) (fun r => r.version) _ q hqf
  have hxo : x.organization = o := hko.trans hqo
  refine ⟨x, hx, hxo, ?_⟩
  have h1 : List.lookup feat m.rows =
      some ((httpDedupedReports reports).map fun r =>
        if feat ∈ r.supportedFeatures then posIndicator else negIndicator) := by
    rw [hrows]
    exact lookup_map_self (fun f => (httpDedupedReports reports).map fun r =>
      if f ∈ r.supportedFeatures then posIndicator else negIndicator) hf
  have h2 : matrixCell m feat o = List.lookup o (m.orgColumns.zip
      ((httpDedupedReports reports).map fun r =>
        if feat ∈ r.supportedFeatures then posIndicator else negIndicator)) := by
    simp only [matrixCell, h1]
  rw [h2, hcols, ← hxo]
  exact lookup_zip_map (fun r : Row => r.organization)
    (fun r => if feat ∈ r.supportedFeatures then posIndicator else negIndicator)
    _ x hx (sortDedup_pairwise_ne _ _ _)

def c4Demo : List Row :=
  [{ organization := "Acme", version := "1.0.0", name := "HTTP",
     supportedFeatures := ["HTTPRouteMethodMatching"] }]

def c4DemoMatrix : FeatureMatrix := (httproute_table c4Demo).toOption.getD default

/-- C4 witness: `"Acme"` supports exactly `HTTPRouteMethodMatching`, so the
cell for that feature under the `"Acme"` column is determined by the
membership test on its deduplicated HTTP row. -/
theorem c4_feature_cell_iff_membership_witness :
    ∃ x ∈ httpDedupedReports c4Demo, x.organization = "Acme" ∧
      matrixCell c4DemoMatrix "HTTPRouteMethodMatching" "Acme" =
        some (if "HTTPRouteMethodMatching" ∈ x.supportedFeatures
              then posIndicator else negIndicator) :=
  c4_feature_cell_iff_membership c4Demo c4DemoMatrix (by rfl)
    "HTTPRouteMethodMatching" (by decide) "Acme"
    ⟨{ organization := "Acme", version := "1.0.0", name := "HTTP",
       supportedFeatures := ["HTTPRouteMethodMatching"] },
     by decide, rfl, rfl⟩
